import Mathlib

/-!
Verification of the asset build pipeline in `scripts/common.py`,
`scripts/build_assets.py`, `scripts/build_project.py` and
`scripts/clean_project.py` of the Amplitude Audio SDK.

Paths and other Python strings are embedded as `List Char`.  Python's
`str.replace(old, new)` (replace every non-overlapping occurrence, scanning
left to right; an empty pattern inserts `new` between all characters and at
both ends) is embedded as `pyReplace`.  The filesystem is embedded as a pair
of oracles (`os.path.isfile` and `os.path.getmtime`); the scripts consult
nothing else about it except through `glob`, which is treated as the source
of the discovered input paths.
-/

namespace AmplitudeBuild

/-- Scanner for `pyReplace`.  The `skip` counter suppresses copying of the
remaining characters of an occurrence that has already been replaced.
Structural in the string argument, so closed terms reduce by `decide`. -/
def replGo (old new : List Char) : Nat → List Char → List Char
  | _, [] => []
  | k + 1, _ :: rest => replGo old new k rest
  | 0, c :: rest =>
    if old.isPrefixOf (c :: rest) then new ++ replGo old new (old.length - 1) rest
    else c :: replGo old new 0 rest

/-- Number of replacements the scanner performs. -/
def replGoCount (old : List Char) : Nat → List Char → Nat
  | _, [] => 0
  | k + 1, _ :: rest => replGoCount old k rest
  | 0, c :: rest =>
    if old.isPrefixOf (c :: rest) then replGoCount old (old.length - 1) rest + 1
    else replGoCount old 0 rest

/-- Python's `s.replace(old, new)`: every non-overlapping occurrence of `old`
in `s` is replaced by `new`, scanning from the left.  With `old = ""` Python
inserts `new` before every character and once at the end. -/
def pyReplace (s old new : List Char) : List Char :=
  if old.isEmpty then new ++ s.foldr (fun c acc => c :: (new ++ acc)) []
  else replGo old new 0 s

/-- Number of occurrences `pyReplace` replaces (for a nonempty pattern). -/
def pyCount (s old : List Char) : Nat := replGoCount old 0 s

theorem replGo_skip (old new : List Char) :
    ∀ (k : Nat) (s : List Char), replGo old new k s = replGo old new 0 (s.drop k) := by
  intro k
  induction k with
  | zero => intro s; rfl
  | succ k ih =>
    intro s
    cases s with
    | nil => rfl
    | cons c rest => simpa [replGo] using ih rest

theorem replGoCount_skip (old : List Char) :
    ∀ (k : Nat) (s : List Char), replGoCount old k s = replGoCount old 0 (s.drop k) := by
  intro k
  induction k with
  | zero => intro s; rfl
  | succ k ih =>
    intro s
    cases s with
    | nil => rfl
    | cons c rest => simpa [replGoCount] using ih rest

theorem pyReplace_nil (old new : List Char) (h : old ≠ []) : pyReplace [] old new = [] := by
  simp [pyReplace, List.isEmpty_iff, h, replGo]

theorem pyReplace_cons (c : Char) (rest old new : List Char) (h : old ≠ []) :
    pyReplace (c :: rest) old new =
      if old.isPrefixOf (c :: rest) then
        new ++ pyReplace ((c :: rest).drop old.length) old new
      else c :: pyReplace rest old new := by
  have hne : ¬ old.isEmpty := by simp [List.isEmpty_iff, h]
  by_cases hp : old.isPrefixOf (c :: rest)
  · have hlen : 1 ≤ old.length := by
      cases old with
      | nil => exact absurd rfl h
      | cons _ _ => simp
    have hdrop : (c :: rest).drop old.length = rest.drop (old.length - 1) := by
      cases old with
      | nil => exact absurd rfl h
      | cons d old' => simp
    simp only [pyReplace, hne, if_false, Bool.false_eq_true, ite_false, replGo, hp, if_true,
      ite_true, hdrop]
    rw [replGo_skip]
  · simp only [pyReplace, hne, Bool.false_eq_true, ite_false, replGo, hp, ite_false]

theorem pyCount_nil (old : List Char) : pyCount [] old = 0 := rfl

theorem pyCount_cons (c : Char) (rest old : List Char) (h : old ≠ []) :
    pyCount (c :: rest) old =
      if old.isPrefixOf (c :: rest) then
        pyCount ((c :: rest).drop old.length) old + 1
      else pyCount rest old := by
  by_cases hp : old.isPrefixOf (c :: rest)
  · have hdrop : (c :: rest).drop old.length = rest.drop (old.length - 1) := by
      cases old with
      | nil => exact absurd rfl h
      | cons d old' => simp
    simp only [pyCount, replGoCount, hp, if_true, ite_true, hdrop]
    rw [replGoCount_skip]
  · simp [pyCount, replGoCount, hp]

/-! ### String constants of `scripts/common.py` -/

/-- The extension of raw asset description files. -/
def jsonL : List Char := ".json".data

/-- `SOUNDS_DIR_NAME` -/
def soundsDir : List Char := "sounds".data

/-- `COLLECTIONS_DIR_NAME` -/
def collectionsDir : List Char := "collections".data

/-- `SOUNDBANKS_DIR_NAME` -/
def soundbanksDir : List Char := "soundbanks".data

/-- `EVENTS_DIR_NAME` -/
def eventsDir : List Char := "events".data

/-- `ATTENUATORS_DIR_NAME` -/
def attenuatorsDir : List Char := "attenuators".data

/-- `SWITCHES_DIR_NAME` -/
def switchesDir : List Char := "switches".data

/-- `SWITCH_CONTAINERS_DIR_NAME` -/
def switchContainersDir : List Char := "switch_containers".data

/-- `RTPC_DIR_NAME` -/
def rtpcDir : List Char := "rtpc".data

/-- `EFFECTS_DIR_NAME` -/
def effectsDir : List Char := "effects".data

/-- `ENVIRONMENTS_DIR_NAME` -/
def environmentsDir : List Char := "environments".data

/-- Filename suffix marker for engine configuration files. -/
def configJsonSuffix : List Char := "config.json".data

/-- Filename suffix marker for bus definition files. -/
def busesJsonSuffix : List Char := "buses.json".data

def extConfig : List Char := ".amconfig".data

def extBus : List Char := ".ambus".data

def extBank : List Char := ".ambank".data

def extCollection : List Char := ".amcollection".data

def extEvent : List Char := ".amevent".data

def extAttenuation : List Char := ".amattenuation".data

def extSwitch : List Char := ".amswitch".data

def extSwitchContainer : List Char := ".amswitchcontainer".data

def extRtpc : List Char := ".amrtpc".data

def extSound : List Char := ".amsound".data

def extEnv : List Char := ".amenv".data

/-- Fallback extension of `processed_json_path` in `common.py`. -/
def extBin : List Char := ".ambin".data

/-- The list of all output extensions the classifier chain can produce. -/
def allExtensions : List (List Char) :=
  [extConfig, extBus, extBank, extCollection, extEvent, extAttenuation, extSwitch,
   extSwitchContainer, extRtpc, extSound, extEnv, extBin]

/-! ### The classifier chain of `common.processed_json_path` (lines 178-194) -/

/-- The conditional-expression chain inside `processed_json_path` in
`scripts/common.py`, choosing the replacement extension for `.json`. -/
def amExtension (path : List Char) : List Char :=
  if configJsonSuffix.isSuffixOf path then extConfig
  else if busesJsonSuffix.isSuffixOf path then extBus
  else if soundbanksDir <:+: path then extBank
  else if collectionsDir <:+: path then extCollection
  else if eventsDir <:+: path then extEvent
  else if attenuatorsDir <:+: path then extAttenuation
  else if switchesDir <:+: path then extSwitch
  else if switchContainersDir <:+: path then extSwitchContainer
  else if rtpcDir <:+: path then extRtpc
  else if soundsDir <:+: path then extSound
  else if environmentsDir <:+: path then extEnv
  else extBin

/-- `common.processed_json_path(path, input_path, output_path)`:
`path.replace(".json", <chain>).replace(input_path, output_path)`. -/
def processed_json_path (path input_path output_path : List Char) : List Char :=
  pyReplace (pyReplace path jsonL (amExtension path)) input_path output_path

/-! ### The marker registry, rendered from the spec's Category Registry

The spec describes classification as a first-match scan over an ordered
registry of markers.  `extensionRegistry` lists the markers in the order the
chain in `common.processed_json_path` tests them; `classifyFirstMatch` is the
spec-side first-match scan, to be compared against `amExtension`. -/

/-- A category marker: either a filename-suffix test or a directory-name
(substring) test. -/
inductive Marker where
  | suffixPat (pat : List Char)
  | dirPat (pat : List Char)
deriving DecidableEq

/-- Whether a marker matches a path. -/
def markerMatches (m : Marker) (path : List Char) : Bool :=
  match m with
  | .suffixPat pat => pat.isSuffixOf path
  | .dirPat pat => decide (pat <:+: path)

/-- The ordered marker registry of the classifier chain, with each marker's
output extension. -/
def extensionRegistry : List (Marker × List Char) :=
  [(.suffixPat configJsonSuffix, extConfig),
   (.suffixPat busesJsonSuffix, extBus),
   (.dirPat soundbanksDir, extBank),
   (.dirPat collectionsDir, extCollection),
   (.dirPat eventsDir, extEvent),
   (.dirPat attenuatorsDir, extAttenuation),
   (.dirPat switchesDir, extSwitch),
   (.dirPat switchContainersDir, extSwitchContainer),
   (.dirPat rtpcDir, extRtpc),
   (.dirPat soundsDir, extSound),
   (.dirPat environmentsDir, extEnv)]

/-- Modelled on the spec's words for `classify`: test the markers in registry
order and return the first match's extension, or the fallback extension. -/
def classifyFirstMatch : List (Marker × List Char) → List Char → List Char
  | [], _ => extBin
  | (m, e) :: rest, path =>
    if markerMatches m path then e else classifyFirstMatch rest path

/-- Whether a marker is a filename-suffix marker. -/
def Marker.isSuffixMarker : Marker → Bool
  | .suffixPat _ => true
  | .dirPat _ => false

/-! ### Filesystem model and the staleness oracle -/

/-- The filesystem facts the scripts consult: `os.path.isfile` and
`os.path.getmtime`.  (`getmtime` is total here; the scripts only consult it
in positions where Python would have raised on a missing file, which no claim
exercises.) -/
structure FS where
  isfile : List Char → Bool
  getmtime : List Char → Int

/-- `needs_rebuild(source, target)` from `common.py` lines 162-175 (the same
code appears in `build_assets.py` lines 192-204). -/
def needs_rebuild (fs : FS) (source target : List Char) : Bool :=
  !fs.isfile target || decide (fs.getmtime source > fs.getmtime target)

/-- The per-unit rebuild test of `common.generate_flatbuffers_binaries`
(line 224): `needs_rebuild(json, target) or needs_rebuild(schema, target)`
with `target = processed_json_path(json, input_path, output_path)`. -/
def unit_needs_rebuild (fs : FS) (schema json input_path output_path : List Char) : Bool :=
  needs_rebuild fs json (processed_json_path json input_path output_path) ||
    needs_rebuild fs schema (processed_json_path json input_path output_path)

/-! ### Schema lookup -/

/-- `os.path.join` for two components on POSIX: absolute second component
wins; an empty or slash-terminated first component concatenates without a
separator; otherwise a `/` is inserted. -/
def osJoin (a b : List Char) : List Char :=
  if b.head? = some '/' then b
  else if a = [] then b
  else if a.getLast? = some '/' then a ++ b
  else a ++ '/' :: b

/-- `find_in_paths(name, paths)` from `common.py` lines 229-236 (the same
code appears in `build_assets.py` lines 101-108 and `build_schemas.py`). -/
def find_in_paths (fs : FS) (name : List Char) : List (List Char) → List Char
  | [] => name
  | p :: rest =>
    if fs.isfile (osJoin p name) then osJoin p name else find_in_paths fs name rest

/-! ### The conversion-data registry of `common.get_conversion_data` -/

/-- How one registry entry discovers its input files. -/
inductive GlobSpec where
  /-- `glob.glob(os.path.join(project_path, pattern))`, non-recursive. -/
  | topLevel (pattern : List Char)
  /-- `glob.glob(os.path.join(project_path, dir, '**/*.json'), recursive=True)`. -/
  | recursiveDir (dir : List Char)
deriving DecidableEq

/-- One entry of the conversion-data registry: the schema file name and the
glob that enumerates its inputs. -/
structure ConversionEntry where
  schemaId : List Char
  files : GlobSpec
deriving DecidableEq

/-- The eleven-entry registry built by `common.get_conversion_data`
(lines 285-341), in source order. -/
def get_conversion_data_entries : List ConversionEntry :=
  [⟨"engine_config_definition.bfbs".data, .topLevel "*.config.json".data⟩,
   ⟨"buses_definition.bfbs".data, .topLevel "*.buses.json".data⟩,
   ⟨"sound_bank_definition.bfbs".data, .recursiveDir soundbanksDir⟩,
   ⟨"collection_definition.bfbs".data, .recursiveDir collectionsDir⟩,
   ⟨"sound_definition.bfbs".data, .recursiveDir soundsDir⟩,
   ⟨"event_definition.bfbs".data, .recursiveDir eventsDir⟩,
   ⟨"attenuation_definition.bfbs".data, .recursiveDir attenuatorsDir⟩,
   ⟨"switch_definition.bfbs".data, .recursiveDir switchesDir⟩,
   ⟨"switch_container_definition.bfbs".data, .recursiveDir switchContainersDir⟩,
   ⟨"rtpc_definition.bfbs".data, .recursiveDir rtpcDir⟩,
   ⟨"effect_definition.bfbs".data, .recursiveDir effectsDir⟩]

/-! ### Cleaning (`common.clean_flatbuffers_binaries`, lines 239-253) -/

/-- A `FlatbuffersConversionData` instance: a schema path and the discovered
input files. -/
structure FlatbuffersConversionData where
  schema : List Char
  input_files : List (List Char)

/-- Effect of `os.remove(p)` on the filesystem model. -/
def remove_file (p : List Char) (fs : FS) : FS :=
  { fs with isfile := fun q => if q = p then false else fs.isfile q }

/-- The body of the inner loop of `clean_flatbuffers_binaries`: delete the
processed path of one input file if it exists. -/
def clean_one (input_path output_path : List Char) (fs : FS) (json : List Char) : FS :=
  let path := processed_json_path json input_path output_path
  if fs.isfile path then remove_file path fs else fs

/-- `common.clean_flatbuffers_binaries(conversion_data, input_path,
output_path)` as a filesystem transformer. -/
def clean_flatbuffers_binaries (conversion_data : List FlatbuffersConversionData)
    (input_path output_path : List Char) (fs : FS) : FS :=
  conversion_data.foldl
    (fun fs element => element.input_files.foldl (clean_one input_path output_path) fs) fs

/-- All output paths the plan resolves (the full, unfiltered plan's outputs). -/
def plan_outputs (conversion_data : List FlatbuffersConversionData)
    (input_path output_path : List Char) : List (List Char) :=
  conversion_data.foldr
    (fun element acc =>
      element.input_files.map (fun json => processed_json_path json input_path output_path) ++ acc)
    []

/-! ### The fixed-sample-tree variant (`scripts/build_assets.py`) -/

/-- The fallback extension of the sample-tree variant. -/
def dotBin : List Char := ".bin".data

/-- `build_assets.processed_json_path(path, target_directory)` (lines
207-214): `path.replace(RAW_ASSETS_PATH, target_directory).replace('.json',
'.bin')` — root substitution first, then extension substitution. -/
def processed_json_path_assets (path raw_assets_path target_directory : List Char) : List Char :=
  pyReplace (pyReplace path raw_assets_path target_directory) jsonL dotBin

/-- Inner loop body of `build_assets.clean_flatbuffer_binaries`. -/
def clean_one_assets (raw_assets_path target_directory : List Char) (fs : FS)
    (json : List Char) : FS :=
  let path := processed_json_path_assets json raw_assets_path target_directory
  if fs.isfile path then remove_file path fs else fs

/-- `build_assets.clean_flatbuffer_binaries(target_directory)` (lines
262-272), parameterised by the module-level conversion data and raw-assets
root. -/
def clean_flatbuffer_binaries_assets (conversion_data : List FlatbuffersConversionData)
    (raw_assets_path target_directory : List Char) (fs : FS) : FS :=
  conversion_data.foldl
    (fun fs element =>
      element.input_files.foldl (clean_one_assets raw_assets_path target_directory) fs) fs

/-- The `TypeError` Python raises when `clean_flatbuffer_binaries` is called
without its required `target_directory` argument. -/
def missingArgumentTypeError : List Char :=
  "TypeError: clean_flatbuffer_binaries() missing 1 required positional argument: target_directory".data

/-- A Python call to `clean_flatbuffer_binaries` with an explicit positional
argument list: Python checks the arity at call time and raises a `TypeError`
before any of the body runs unless exactly one argument is supplied. -/
def call_clean_flatbuffer_binaries (conversion_data : List FlatbuffersConversionData)
    (raw_assets_path : List Char) (args : List (List Char)) (fs : FS) :
    Except (List Char) FS :=
  match args with
  | [target_directory] =>
    .ok (clean_flatbuffer_binaries_assets conversion_data raw_assets_path target_directory fs)
  | _ => .error missingArgumentTypeError

/-- `build_assets.clean()` (lines 275-277): calls
`clean_flatbuffer_binaries()` with zero arguments. -/
def clean_assets_entry (conversion_data : List FlatbuffersConversionData)
    (raw_assets_path : List Char) (fs : FS) : Except (List Char) FS :=
  call_clean_flatbuffer_binaries conversion_data raw_assets_path [] fs

/-! ### General lemmas about `pyReplace` -/

theorem pyReplace_of_not_infix {s old : List Char} (new : List Char) (h : ¬ old <:+: s) :
    pyReplace s old new = s := by
  have hold : old ≠ [] := by
    intro he
    exact h (he ▸ List.nil_infix)
  induction s with
  | nil => exact pyReplace_nil old new hold
  | cons c rest ih =>
    rw [pyReplace_cons c rest old new hold]
    have hp : ¬ old.isPrefixOf (c :: rest) := by
      intro hb
      exact h (List.isPrefixOf_iff_prefix.mp hb).isInfix
    rw [if_neg hp, ih fun hi => h (List.infix_cons hi)]

theorem pyCount_of_not_infix {s old : List Char} (h : ¬ old <:+: s) : pyCount s old = 0 := by
  have hold : old ≠ [] := by
    intro he
    exact h (he ▸ List.nil_infix)
  induction s with
  | nil => exact pyCount_nil old
  | cons c rest ih =>
    rw [pyCount_cons c rest old hold]
    have hp : ¬ old.isPrefixOf (c :: rest) := by
      intro hb
      exact h (List.isPrefixOf_iff_prefix.mp hb).isInfix
    rw [if_neg hp, ih fun hi => h (List.infix_cons hi)]

theorem pyReplace_append_left (old t new : List Char) (h : old ≠ []) :
    pyReplace (old ++ t) old new = new ++ pyReplace t old new := by
  cases old with
  | nil => exact absurd rfl h
  | cons d old' =>
    rw [List.cons_append, pyReplace_cons d (old' ++ t) (d :: old') new h]
    have hp : (d :: old').isPrefixOf (d :: (old' ++ t)) := by
      rw [List.isPrefixOf_iff_prefix]
      exact ⟨t, by simp⟩
    rw [if_pos hp]
    congr 1
    congr 1
    exact List.drop_left (d :: old') t

theorem pyCount_append_left (old t : List Char) (h : old ≠ []) :
    pyCount (old ++ t) old = pyCount t old + 1 := by
  cases old with
  | nil => exact absurd rfl h
  | cons d old' =>
    rw [List.cons_append, pyCount_cons d (old' ++ t) (d :: old') h]
    have hp : (d :: old').isPrefixOf (d :: (old' ++ t)) := by
      rw [List.isPrefixOf_iff_prefix]
      exact ⟨t, by simp⟩
    rw [if_pos hp]
    congr 2
    exact List.drop_left (d :: old') t

theorem pyCount_pos_of_infix {s old : List Char} (hold : old ≠ []) (h : old <:+: s) :
    1 ≤ pyCount s old := by
  induction s with
  | nil =>
    obtain ⟨u, v, huv⟩ := h
    have : old = [] := by
      have := List.append_eq_nil.mp (List.append_eq_nil.mp huv).1
      exact this.2
    exact absurd this hold
  | cons c rest ih =>
    rw [pyCount_cons c rest old hold]
    by_cases hp : old.isPrefixOf (c :: rest)
    · rw [if_pos hp]
      omega
    · rw [if_neg hp]
      rcases List.infix_cons_iff.mp h with hpre | hinf
      · exact absurd (List.isPrefixOf_iff_prefix.mpr hpre) hp
      · exact ih hinf

theorem pyReplace_factor (old new : List Char) (hold : old ≠ []) :
    ∀ (n : Nat) (p : List Char), (∀ i < n, ¬ old <+: p.drop i) →
      pyReplace p old new = p.take n ++ pyReplace (p.drop n) old new := by
  intro n
  induction n with
  | zero => intro p _; simp
  | succ n ih =>
    intro p hp
    cases p with
    | nil => simp [pyReplace_nil old new hold]
    | cons c rest =>
      have h0 : ¬ old.isPrefixOf (c :: rest) := by
        intro hb
        exact hp 0 (Nat.succ_pos n) (by simpa using List.isPrefixOf_iff_prefix.mp hb)
      rw [pyReplace_cons c rest old new hold, if_neg h0]
      have hrest : ∀ i < n, ¬ old <+: rest.drop i := by
        intro i hi
        simpa using hp (i + 1) (Nat.succ_lt_succ hi)
      rw [ih rest hrest]
      simp

theorem length_pyReplace (old new : List Char) (hold : old ≠ []) :
    ∀ s : List Char,
      (pyReplace s old new).length + pyCount s old * old.length =
        s.length + pyCount s old * new.length := by
  have main : ∀ (n : Nat) (s : List Char), s.length ≤ n →
      (pyReplace s old new).length + pyCount s old * old.length =
        s.length + pyCount s old * new.length := by
    intro n
    induction n with
    | zero =>
      intro s hs
      have : s = [] := List.length_eq_zero.mp (Nat.le_zero.mp hs)
      subst this
      simp [pyReplace_nil old new hold, pyCount_nil]
    | succ n ih =>
      intro s hs
      cases s with
      | nil => simp [pyReplace_nil old new hold, pyCount_nil]
      | cons c rest =>
        rw [pyReplace_cons c rest old new hold, pyCount_cons c rest old hold]
        by_cases hp : old.isPrefixOf (c :: rest)
        · rw [if_pos hp, if_pos hp]
          obtain ⟨s', hs'⟩ := List.isPrefixOf_iff_prefix.mp hp
          have hdrop : (c :: rest).drop old.length = s' := by
            rw [← hs']
            exact List.drop_left old s'
          rw [hdrop]
          have hlen : s'.length ≤ n := by
            have h1 : old.length + s'.length = rest.length + 1 := by
              have := congrArg List.length hs'
              simpa using this
            have h2 : 1 ≤ old.length := by
              cases old with
              | nil => exact absurd rfl hold
              | cons _ _ => simp
            simp only [List.length_cons] at hs
            omega
          have := ih s' hlen
          have holdlen : (c :: rest).length = old.length + s'.length := by
            have := congrArg List.length hs'
            simpa [eq_comm] using this
          simp only [List.length_append, holdlen, Nat.succ_mul]
          omega
        · rw [if_neg hp, if_neg hp]
          have := ih rest (by simp only [List.length_cons] at hs; omega)
          simp only [List.length_cons]
          omega
  exact fun s => main s.length s le_rfl

theorem count_pyReplace (a : Char) (old new : List Char) (hold : old ≠ []) :
    ∀ s : List Char,
      (pyReplace s old new).count a + pyCount s old * old.count a =
        s.count a + pyCount s old * new.count a := by
  have main : ∀ (n : Nat) (s : List Char), s.length ≤ n →
      (pyReplace s old new).count a + pyCount s old * old.count a =
        s.count a + pyCount s old * new.count a := by
    intro n
    induction n with
    | zero =>
      intro s hs
      have : s = [] := List.length_eq_zero.mp (Nat.le_zero.mp hs)
      subst this
      simp [pyReplace_nil old new hold, pyCount_nil]
    | succ n ih =>
      intro s hs
      cases s with
      | nil => simp [pyReplace_nil old new hold, pyCount_nil]
      | cons c rest =>
        rw [pyReplace_cons c rest old new hold, pyCount_cons c rest old hold]
        by_cases hp : old.isPrefixOf (c :: rest)
        · rw [if_pos hp, if_pos hp]
          obtain ⟨s', hs'⟩ := List.isPrefixOf_iff_prefix.mp hp
          have hdrop : (c :: rest).drop old.length = s' := by
            rw [← hs']
            exact List.drop_left old s'
          rw [hdrop]
          have hlen : s'.length ≤ n := by
            have h1 : old.length + s'.length = rest.length + 1 := by
              have := congrArg List.length hs'
              simpa using this
            have h2 : 1 ≤ old.length := by
              cases old with
              | nil => exact absurd rfl hold
              | cons _ _ => simp
            simp only [List.length_cons] at hs
            omega
          have := ih s' hlen
          have hcnt : (c :: rest).count a = old.count a + s'.count a := by
            rw [← hs', List.count_append]
          simp only [List.count_append, hcnt, Nat.succ_mul]
          omega
        · rw [if_neg hp, if_neg hp]
          have := ih rest (by simp only [List.length_cons] at hs; omega)
          rcases Nat.decEq (if c = a then 1 else 0) 0 with h | h <;>
            simp only [List.count_cons] <;> omega
  exact fun s => main s.length s le_rfl

/-- Splitting an occurrence inside an appended list: the occurrence lies in
the left part, lies in the right part, or straddles the boundary. -/
theorem infix_append_split {l X Y : List Char} (h : l <:+: X ++ Y) :
    l <:+: X ∨ l <:+: Y ∨
      ∃ A B, l = A ++ B ∧ A ≠ [] ∧ B ≠ [] ∧ A <:+ X ∧ B <+: Y := by
  obtain ⟨u, v, huv⟩ := h
  rw [List.append_assoc] at huv
  rcases List.append_eq_append_iff.mp huv with ⟨a, ha1, ha2⟩ | ⟨w, hw1, hw2⟩
  · rcases List.append_eq_append_iff.mp ha2 with ⟨b, hb1, hb2⟩ | ⟨b, hb1, hb2⟩
    · left
      exact ⟨u, b, by rw [ha1, hb1, List.append_assoc]⟩
    · by_cases hbnil : b = []
      · subst hbnil
        left
        rw [List.append_nil] at hb1
        exact ⟨u, [], by rw [ha1, hb1, List.append_nil]⟩
      · by_cases hanil : a = []
        · subst hanil
          right; left
          simp only [List.nil_append] at hb1
          exact ⟨[], v, by rw [hb2, ← hb1]; simp⟩
        · right; right
          exact ⟨a, b, hb1, hanil, hbnil, ⟨u, ha1.symm⟩, ⟨v, hb2.symm⟩⟩
  · right; left
    exact ⟨w, v, by rw [hw2, List.append_assoc]⟩

/-! ### Facts about the `.json` pattern and the replacement extensions -/

/-- The facts about a replacement extension that the interaction lemmas with
the `.json` pattern rely on: nonempty, starts with a dot, at least six
characters, contains no occurrence of `.json`, no nonempty suffix of it is a
prefix of `.json`, and it contains no letter `j` at all. -/
def ExtOk (E : List Char) : Prop :=
  E ≠ [] ∧ E.head? = some '.' ∧ 6 ≤ E.length ∧ ¬ jsonL <:+: E ∧
    (∀ i < E.length, ¬ E.drop i <+: jsonL) ∧ E.count 'j' = 0

instance (E : List Char) : Decidable (ExtOk E) := by
  unfold ExtOk
  infer_instance

theorem extOk_allExtensions : ∀ E ∈ allExtensions, ExtOk E := by decide

set_option maxHeartbeats 1000000 in
theorem amExtension_mem (path : List Char) : amExtension path ∈ allExtensions := by
  unfold amExtension
  split_ifs <;> simp [allExtensions]

theorem extOk_amExtension (path : List Char) : ExtOk (amExtension path) :=
  extOk_allExtensions _ (amExtension_mem path)

theorem jsonL_ne_nil : jsonL ≠ [] := by decide

theorem jsonL_length : jsonL.length = 5 := by decide

/-- Dropping at most the length of the left part of an append. -/
theorem drop_append_le {l₁ l₂ : List Char} {n : Nat} (h : n ≤ l₁.length) :
    (l₁ ++ l₂).drop n = l₁.drop n ++ l₂ := by
  conv_lhs => rw [← List.take_append_drop n l₁]
  rw [List.append_assoc, List.drop_left' (by simp [Nat.min_eq_left h])]

/-- `.json` has no border: it cannot overlap itself. -/
theorem json_border {k : Nat} (hk1 : 1 ≤ k) (hk4 : k ≤ 4) {q u : List Char}
    (hq : q.length = k) (hu : u.length = k) (heq : jsonL ++ q = u ++ jsonL) : False := by
  have h1 : (jsonL ++ q).drop k = jsonL.drop k ++ q :=
    drop_append_le (by rw [jsonL_length]; omega)
  have h2 : (u ++ jsonL).drop k = jsonL := by
    rw [drop_append_le (by omega : k ≤ u.length), List.drop_of_length_le (by omega),
      List.nil_append]
  have hdrop : jsonL.drop k ++ q = jsonL := by rw [← h1, heq]; exact h2
  have hlen : (jsonL.drop k).length = 5 - k := by rw [List.length_drop, jsonL_length]
  have htake := congrArg (List.take (5 - k)) hdrop
  rw [List.take_left' hlen] at htake
  have hkey : ∀ k' < 5, 1 ≤ k' → jsonL.drop k' ≠ jsonL.take (5 - k') := by decide
  exact hkey k (by omega) hk1 htake

/-- If the output of the `.json` substitution starts with a proper tail of
`.json`, then so did the input. -/
theorem json_tail_prefix_pyReplace (E : List Char) (hE : ExtOk E) :
    ∀ (n : Nat) (s : List Char), s.length ≤ n → ∀ k, 1 ≤ k → k ≤ 4 →
      jsonL.drop k <+: pyReplace s jsonL E → jsonL.drop k <+: s := by
  intro n
  induction n with
  | zero =>
    intro s hs k hk1 hk4 hpre
    have : s = [] := List.length_eq_zero.mp (Nat.le_zero.mp hs)
    subst this
    rw [pyReplace_nil jsonL E jsonL_ne_nil] at hpre
    have := List.prefix_nil.mp hpre
    have hlen := congrArg List.length this
    rw [List.length_drop, jsonL_length] at hlen
    simp at hlen
    omega
  | succ n ih =>
    intro s hs k hk1 hk4 hpre
    cases s with
    | nil =>
      rw [pyReplace_nil jsonL E jsonL_ne_nil] at hpre
      have := List.prefix_nil.mp hpre
      have hlen := congrArg List.length this
      rw [List.length_drop, jsonL_length] at hlen
      simp at hlen
      omega
    | cons c rest =>
      rw [pyReplace_cons c rest jsonL E jsonL_ne_nil] at hpre
      by_cases hj : jsonL.isPrefixOf (c :: rest)
      · rw [if_pos hj] at hpre
        exfalso
        obtain ⟨t, ht⟩ := hpre
        have hhead := congrArg List.head? ht
        rw [List.head?_append, List.head?_append, hE.2.1] at hhead
        have hfact : ∀ k' < 5, 1 ≤ k' →
            (jsonL.drop k').head? ≠ some '.' ∧ ((jsonL.drop k').head?).isSome = true := by
          decide
        obtain ⟨hne', hsome⟩ := hfact k (by omega) hk1
        cases hcase : (jsonL.drop k).head? with
        | none => rw [hcase] at hsome; simp at hsome
        | some d =>
          rw [hcase] at hhead hne'
          simp only [Option.or_some] at hhead
          exact hne' hhead
      · rw [if_neg hj] at hpre
        have hk5 : k < jsonL.length := by rw [jsonL_length]; omega
        rw [List.drop_eq_getElem_cons hk5] at hpre
        rw [List.cons_prefix_cons] at hpre
        obtain ⟨hc, htail⟩ := hpre
        by_cases hk4' : k = 4
        · subst hk4'
          rw [List.drop_eq_getElem_cons hk5, ← hc]
          refine List.cons_prefix_cons.mpr ⟨rfl, ?_⟩
          have h5 : jsonL.drop (4 + 1) = [] := by decide
          rw [h5]
          exact List.nil_prefix
        · have htail' : jsonL.drop (k + 1) <+: rest := by
            apply ih rest (by simp only [List.length_cons] at hs; omega) (k + 1) (by omega) (by omega)
            exact htail
          rw [List.drop_eq_getElem_cons hk5, ← hc]
          exact List.cons_prefix_cons.mpr ⟨rfl, htail'⟩

/-- Substituting every `.json` occurrence by a well-formed extension leaves a
string with no `.json` occurrence at all. -/
theorem not_json_infix_pyReplace (E : List Char) (hE : ExtOk E) :
    ∀ s : List Char, ¬ jsonL <:+: pyReplace s jsonL E := by
  have main : ∀ (n : Nat) (s : List Char), s.length ≤ n → ¬ jsonL <:+: pyReplace s jsonL E := by
    intro n
    induction n with
    | zero =>
      intro s hs
      have : s = [] := List.length_eq_zero.mp (Nat.le_zero.mp hs)
      subst this
      rw [pyReplace_nil jsonL E jsonL_ne_nil]
      intro h
      exact jsonL_ne_nil (List.infix_nil.mp h)
    | succ n ih =>
      intro s hs
      cases s with
      | nil =>
        rw [pyReplace_nil jsonL E jsonL_ne_nil]
        intro h
        exact jsonL_ne_nil (List.infix_nil.mp h)
      | cons c rest =>
        rw [pyReplace_cons c rest jsonL E jsonL_ne_nil]
        by_cases hj : jsonL.isPrefixOf (c :: rest)
        · rw [if_pos hj]
          intro hinf
          rcases infix_append_split hinf with hIn | hIn | ⟨A, B, hAB, hAne, hBne, hAsuf, hBpre⟩
          · exact hE.2.2.2.1 hIn
          · have hlen : ((c :: rest).drop jsonL.length).length ≤ n := by
              rw [List.length_drop, jsonL_length]
              simp only [List.length_cons] at hs ⊢
              omega
            exact ih _ hlen hIn
          · obtain ⟨u, hu⟩ := hAsuf
            have hAdrop : E.drop u.length = A := by rw [← hu]; exact List.drop_left u A
            have hiu : u.length < E.length := by
              have := congrArg List.length hu
              simp only [List.length_append] at this
              have hA1 : 1 ≤ A.length := by
                cases A with
                | nil => exact absurd rfl hAne
                | cons _ _ => simp
              omega
            have hApre : A <+: jsonL := ⟨B, hAB.symm⟩
            exact hE.2.2.2.2.1 u.length hiu (hAdrop ▸ hApre)
        · rw [if_neg hj]
          intro hinf
          rcases List.infix_cons_iff.mp hinf with hpre | hinf'
          · have hJ : jsonL = '.' :: jsonL.drop 1 := by decide
            rw [hJ, List.cons_prefix_cons] at hpre
            obtain ⟨hc, htail⟩ := hpre
            have htail' : jsonL.drop 1 <+: rest :=
              json_tail_prefix_pyReplace E hE rest.length rest le_rfl 1 (by omega) (by omega)
                htail
            exact hj (List.isPrefixOf_iff_prefix.mpr
              (by rw [hJ, ← hc]; exact List.cons_prefix_cons.mpr ⟨rfl, htail'⟩))
          · exact ih rest (by simp only [List.length_cons] at hs; omega) hinf'
  exact fun s => main s.length s le_rfl

/-- A string ending in `.json` is mapped by the `.json` substitution to a
string ending in the replacement extension. -/
theorem ext_suffix_pyReplace (E : List Char) :
    ∀ s : List Char, jsonL <:+ s → E <:+ pyReplace s jsonL E := by
  have main : ∀ (n : Nat) (s : List Char), s.length ≤ n → jsonL <:+ s →
      E <:+ pyReplace s jsonL E := by
    intro n
    induction n with
    | zero =>
      intro s hs hsuf
      have : s = [] := List.length_eq_zero.mp (Nat.le_zero.mp hs)
      subst this
      exact absurd (List.suffix_nil.mp hsuf) jsonL_ne_nil
    | succ n ih =>
      intro s hs hsuf
      cases s with
      | nil => exact absurd (List.suffix_nil.mp hsuf) jsonL_ne_nil
      | cons c rest =>
        rw [pyReplace_cons c rest jsonL E jsonL_ne_nil]
        by_cases hj : jsonL.isPrefixOf (c :: rest)
        · rw [if_pos hj]
          obtain ⟨q, hq⟩ := List.isPrefixOf_iff_prefix.mp hj
          have hdrop : (c :: rest).drop jsonL.length = q := by
            rw [← hq]
            exact List.drop_left jsonL q
          rw [hdrop]
          obtain ⟨u, hu⟩ := hsuf
          have hcomb : jsonL ++ q = u ++ jsonL := by rw [hq, hu]
          have hlenq : u.length = q.length := by
            have := congrArg List.length hcomb
            simp only [List.length_append, jsonL_length] at this
            omega
          rcases Nat.lt_or_ge q.length 5 with hqlt | hqge
          · rcases Nat.eq_zero_or_pos q.length with hq0 | hqpos
            · have : q = [] := List.length_eq_zero.mp hq0
              subst this
              rw [pyReplace_nil jsonL E jsonL_ne_nil, List.append_nil]
            · exact (json_border hqpos (by omega) rfl hlenq hcomb).elim
          · have hqsuf : jsonL <:+ q := by
              have hdq := congrArg (List.drop 5) hcomb
              rw [drop_append_le (by rw [jsonL_length] : 5 ≤ jsonL.length)] at hdq
              rw [(by decide : jsonL.drop 5 = ([] : List Char)), List.nil_append] at hdq
              rw [drop_append_le (by omega : 5 ≤ u.length)] at hdq
              exact ⟨u.drop 5, hdq.symm⟩
            have hlen : q.length ≤ n := by
              have := congrArg List.length hq
              simp only [List.length_append, List.length_cons, jsonL_length] at this
              simp only [List.length_cons] at hs
              omega
            exact (ih q hlen hqsuf).trans (List.suffix_append E _)
        · rw [if_neg hj]
          obtain ⟨u, hu⟩ := hsuf
          cases u with
          | nil =>
            simp only [List.nil_append] at hu
            exact absurd (List.isPrefixOf_iff_prefix.mpr (hu ▸ List.prefix_refl jsonL)) hj
          | cons d u' =>
            have hrest : u' ++ jsonL = rest := by
              simp only [List.cons_append, List.cons.injEq] at hu
              exact hu.2
            have := ih rest (by simp only [List.length_cons] at hs; omega) ⟨u', hrest⟩
            exact this.trans (List.suffix_cons c _)
  exact fun s => main s.length s le_rfl

/-! ### Helper lemmas for the clean operation -/

theorem clean_one_isfile (input_path output_path : List Char) (fs : FS) (json f : List Char) :
    (clean_one input_path output_path fs json).isfile f =
      (fs.isfile f && !decide (f = processed_json_path json input_path output_path)) := by
  unfold clean_one remove_file
  by_cases hf : fs.isfile (processed_json_path json input_path output_path) <;>
    by_cases hq : f = processed_json_path json input_path output_path <;>
    simp [hf, hq]

theorem clean_one_getmtime (input_path output_path : List Char) (fs : FS) (json : List Char) :
    (clean_one input_path output_path fs json).getmtime = fs.getmtime := by
  unfold clean_one remove_file
  by_cases hf : fs.isfile (processed_json_path json input_path output_path) <;> simp [hf]

theorem foldl_clean_isfile (input_path output_path : List Char) :
    ∀ (l : List (List Char)) (fs : FS) (f : List Char),
      (l.foldl (clean_one input_path output_path) fs).isfile f =
        (fs.isfile f &&
          !decide (f ∈ l.map (fun j => processed_json_path j input_path output_path))) := by
  intro l
  induction l with
  | nil => intro fs f; simp
  | cons j rest ih =>
    intro fs f
    rw [List.foldl_cons, ih, clean_one_isfile]
    by_cases h1 : f = processed_json_path j input_path output_path <;>
      by_cases h2 : f ∈ rest.map (fun j => processed_json_path j input_path output_path) <;>
      simp [h1, h2]

theorem foldl_clean_getmtime (input_path output_path : List Char) :
    ∀ (l : List (List Char)) (fs : FS),
      (l.foldl (clean_one input_path output_path) fs).getmtime = fs.getmtime := by
  intro l
  induction l with
  | nil => intro fs; rfl
  | cons j rest ih =>
    intro fs
    rw [List.foldl_cons, ih, clean_one_getmtime]

/-! ### Helper lemmas for classification -/

theorem amExtension_eq_classifyFirstMatch (path : List Char) :
    amExtension path = classifyFirstMatch extensionRegistry path := by
  simp only [amExtension, extensionRegistry, classifyFirstMatch, markerMatches,
    decide_eq_true_eq]

theorem classifyFirstMatch_of_no_match :
    ∀ (l : List (Marker × List Char)) (path : List Char),
      (∀ pr ∈ l, markerMatches pr.1 path = false) → classifyFirstMatch l path = extBin := by
  intro l
  induction l with
  | nil => intro path _; rfl
  | cons pr rest ih =>
    intro path h
    obtain ⟨m, e⟩ := pr
    have hm := h (m, e) (List.mem_cons_self _ _)
    simp only [classifyFirstMatch, hm]
    simp only [Bool.false_eq_true, if_false]
    exact ih path fun pr' hpr' => h pr' (List.mem_cons_of_mem _ hpr')

/-! ### Witness filesystems and paths -/

/-- A witness source path. -/
def wJson : List Char := "proj/sounds/a.json".data

/-- A witness schema path. -/
def wSchema : List Char := "schemas/sound_definition.bfbs".data

/-- A witness project root. -/
def wRoot : List Char := "proj".data

/-- A witness output root. -/
def wOut : List Char := "build".data

/-- A filesystem on which no file exists. -/
def fsEmpty : FS := ⟨fun _ => false, fun _ => 0⟩

/-- A filesystem where the witness output exists and only the schema is newer
than it: the input has mtime 1, the output 2, the schema 3. -/
def fsSchemaNewer : FS :=
  ⟨fun p => decide (p = processed_json_path wJson wRoot wOut),
   fun p => if p = wSchema then 3 else if p = wJson then 1 else 2⟩

/-- A filesystem where the output exists and is newer than both the input and
the schema. -/
def fsFresh : FS :=
  ⟨fun p => decide (p = processed_json_path wJson wRoot wOut),
   fun p => if p = processed_json_path wJson wRoot wOut then 9 else 1⟩

/-! ### The claims -/

/-- C2: `needs_rebuild(source, target)` is true when the target does not
exist; true when the target exists and the source's modification time is
strictly greater; and false when the target exists and its modification time
is greater than or equal to the source's. -/
theorem C2_needs_rebuild (fs : FS) (source target : List Char) :
    (fs.isfile target = false → needs_rebuild fs source target = true) ∧
    (fs.isfile target = true → fs.getmtime target < fs.getmtime source →
      needs_rebuild fs source target = true) ∧
    (fs.isfile target = true → fs.getmtime source ≤ fs.getmtime target →
      needs_rebuild fs source target = false) := by
  refine ⟨fun h => ?_, fun h h2 => ?_, fun h h2 => ?_⟩ <;>
    simp [needs_rebuild, h] <;> omega

/-- Witness for C2 at concrete filesystems: a missing target forces a
rebuild, a stale target forces a rebuild, and a fresh target does not. -/
theorem C2_needs_rebuild_witness :
    needs_rebuild fsEmpty wJson (processed_json_path wJson wRoot wOut) = true ∧
    needs_rebuild fsSchemaNewer wSchema (processed_json_path wJson wRoot wOut) = true ∧
    needs_rebuild fsFresh wJson (processed_json_path wJson wRoot wOut) = false :=
  ⟨(C2_needs_rebuild fsEmpty wJson _).1 (by decide),
   (C2_needs_rebuild fsSchemaNewer wSchema _).2.1 (by decide) (by decide),
   (C2_needs_rebuild fsFresh wJson _).2.2 (by decide) (by decide)⟩

/-- C1: the per-unit rebuild test of `generate_flatbuffers_binaries` is true
exactly when `needs_rebuild` holds for the unit's input against its output or
for the unit's schema against its output; in particular it is true when only
the schema (not the input) is newer than the existing output. -/
theorem C1_unit_needs_rebuild (fs : FS) (schema json input_path output_path : List Char) :
    (unit_needs_rebuild fs schema json input_path output_path = true ↔
      (needs_rebuild fs json (processed_json_path json input_path output_path) = true ∨
        needs_rebuild fs schema (processed_json_path json input_path output_path) = true)) ∧
    (fs.isfile (processed_json_path json input_path output_path) = true →
      fs.getmtime json ≤ fs.getmtime (processed_json_path json input_path output_path) →
      fs.getmtime (processed_json_path json input_path output_path) < fs.getmtime schema →
      unit_needs_rebuild fs schema json input_path output_path = true) := by
  constructor
  · simp [unit_needs_rebuild]
  · intro h h1 h2
    simp only [unit_needs_rebuild, needs_rebuild, h, Bool.not_true, Bool.false_or]
    simp only [Bool.or_eq_true, decide_eq_true_eq]
    right
    omega

/-- Witness for C1: on `fsSchemaNewer` only the schema is newer than the
existing output, and the unit is reported as needing rebuild. -/
theorem C1_unit_needs_rebuild_witness :
    unit_needs_rebuild fsSchemaNewer wSchema wJson wRoot wOut = true :=
  (C1_unit_needs_rebuild fsSchemaNewer wSchema wJson wRoot wOut).2
    (by decide) (by decide) (by decide)

/-- C7: `find_in_paths` scans the search directories in order and returns the
join of the first directory whose joined path is a file; when no directory
contains the file it returns the bare name unchanged (and in particular never
fails). -/
theorem C7_find_in_paths (fs : FS) (name : List Char) (paths : List (List Char)) :
    (find_in_paths fs name paths =
      match paths.find? (fun p => fs.isfile (osJoin p name)) with
      | some p => osJoin p name
      | none => name) ∧
    ((∀ p ∈ paths, fs.isfile (osJoin p name) = false) → find_in_paths fs name paths = name) := by
  constructor
  · induction paths with
    | nil => rfl
    | cons p rest ih =>
      by_cases h : fs.isfile (osJoin p name) <;>
        simp [find_in_paths, List.find?_cons, h, ih]
  · intro h
    induction paths with
    | nil => rfl
    | cons p rest ih =>
      have hp := h p (List.mem_cons_self _ _)
      simp only [find_in_paths, hp]
      simp only [Bool.false_eq_true, if_false]
      exact ih fun p' hp' => h p' (List.mem_cons_of_mem _ hp')

/-- Witness for C7: with no schema file present anywhere, the bare name comes
back unchanged. -/
theorem C7_find_in_paths_witness :
    find_in_paths fsEmpty wSchema [wRoot, wOut] = wSchema :=
  (C7_find_in_paths fsEmpty wSchema [wRoot, wOut]).2 (by decide)

/-- C8: `clean_flatbuffers_binaries` consumes the full, unfiltered plan:
after cleaning, a file exists iff it existed before and is not one of the
plan's resolved output paths — every resolved output that existed is deleted,
with no staleness test (modification times are neither consulted nor
changed). -/
theorem C8_clean_full_plan (conversion_data : List FlatbuffersConversionData)
    (input_path output_path : List Char) (fs : FS) (f : List Char) :
    ((clean_flatbuffers_binaries conversion_data input_path output_path fs).isfile f =
      (fs.isfile f && !decide (f ∈ plan_outputs conversion_data input_path output_path))) ∧
    (clean_flatbuffers_binaries conversion_data input_path output_path fs).getmtime =
      fs.getmtime := by
  induction conversion_data generalizing fs with
  | nil => simp [clean_flatbuffers_binaries, plan_outputs]
  | cons e rest ih =>
    have hstep :
        clean_flatbuffers_binaries (e :: rest) input_path output_path fs =
          clean_flatbuffers_binaries rest input_path output_path
            (e.input_files.foldl (clean_one input_path output_path) fs) := rfl
    have hout :
        plan_outputs (e :: rest) input_path output_path =
          e.input_files.map (fun j => processed_json_path j input_path output_path) ++
            plan_outputs rest input_path output_path := rfl
    rw [hstep, hout]
    obtain ⟨ih1, ih2⟩ := ih (e.input_files.foldl (clean_one input_path output_path) fs)
    constructor
    · rw [ih1, foldl_clean_isfile]
      by_cases h1 : f ∈ e.input_files.map (fun j => processed_json_path j input_path output_path) <;>
        by_cases h2 : f ∈ plan_outputs rest input_path output_path <;>
        simp [h1, h2]
    · rw [ih2, foldl_clean_getmtime]

/-- C9: `build_assets.clean()` calls `clean_flatbuffer_binaries` with zero
arguments although that function requires a `target_directory` argument, so
every invocation raises a `TypeError` and no deletion is performed. -/
theorem C9_clean_entry_raises (conversion_data : List FlatbuffersConversionData)
    (raw_assets_path : List Char) (fs : FS) :
    clean_assets_entry conversion_data raw_assets_path fs =
      Except.error missingArgumentTypeError := rfl

/-- C3: the classifier chain is exactly a first-match scan of the ordered
marker registry; the two filename-suffix markers (`config.json`,
`buses.json`) come before every directory-name marker; and a path matching no
marker falls back to the generic `.ambin` extension. -/
theorem C3_classify_first_match (path : List Char) :
    (amExtension path = classifyFirstMatch extensionRegistry path) ∧
    ((extensionRegistry.take 2).all (fun pr => pr.1.isSuffixMarker) = true ∧
      (extensionRegistry.drop 2).all (fun pr => !pr.1.isSuffixMarker) = true) ∧
    ((∀ pr ∈ extensionRegistry, markerMatches pr.1 path = false) →
      amExtension path = extBin) := by
  refine ⟨amExtension_eq_classifyFirstMatch path, by decide, fun h => ?_⟩
  rw [amExtension_eq_classifyFirstMatch path]
  exact classifyFirstMatch_of_no_match extensionRegistry path h

/-- Witness for C3: a path under no category directory and with no suffix
marker classifies to the generic fallback extension. -/
theorem C3_classify_first_match_witness :
    amExtension "/x/a.json".data = extBin :=
  (C3_classify_first_match ("/x/a.json".data)).2.2 (by decide)

/-- C6 counterexample: the plan builder's enumeration
(`get_conversion_data`) has only eleven entries; none of them globs the
`environments` directory and none names an environment schema, so
environment-definition files are not enumerated as convertible candidates. -/
theorem C6_counterexample :
    get_conversion_data_entries.length = 11 ∧
    (∀ e ∈ get_conversion_data_entries, e.files ≠ GlobSpec.recursiveDir environmentsDir) ∧
    (∀ e ∈ get_conversion_data_entries,
      e.schemaId ≠ "environment_definition.bfbs".data) := by
  decide

/-- C6 amended: the plan builder's enumeration covers exactly eleven asset
kinds — engine configuration, buses, sound banks, collections, sounds,
events, attenuations, switches, switch containers, RTPCs and effects — and
omits environment definitions; the classifier's marker registry separately
covers environments (mapping them to `.amenv`) but has no marker for
effects, and its fallback is the generic `.ambin`. -/
theorem C6_amended :
    (get_conversion_data_entries.map ConversionEntry.schemaId =
      ["engine_config_definition.bfbs".data, "buses_definition.bfbs".data,
       "sound_bank_definition.bfbs".data, "collection_definition.bfbs".data,
       "sound_definition.bfbs".data, "event_definition.bfbs".data,
       "attenuation_definition.bfbs".data, "switch_definition.bfbs".data,
       "switch_container_definition.bfbs".data, "rtpc_definition.bfbs".data,
       "effect_definition.bfbs".data]) ∧
    (get_conversion_data_entries.map ConversionEntry.files =
      [GlobSpec.topLevel "*.config.json".data, GlobSpec.topLevel "*.buses.json".data,
       GlobSpec.recursiveDir soundbanksDir, GlobSpec.recursiveDir collectionsDir,
       GlobSpec.recursiveDir soundsDir, GlobSpec.recursiveDir eventsDir,
       GlobSpec.recursiveDir attenuatorsDir, GlobSpec.recursiveDir switchesDir,
       GlobSpec.recursiveDir switchContainersDir, GlobSpec.recursiveDir rtpcDir,
       GlobSpec.recursiveDir effectsDir]) ∧
    ((Marker.dirPat environmentsDir, extEnv) ∈ extensionRegistry) ∧
    (∀ pr ∈ extensionRegistry, pr.1 ≠ Marker.dirPat effectsDir) ∧
    classifyFirstMatch extensionRegistry "/elsewhere/a.json".data = extBin := by
  decide

/-! ### C4 and C5: output-path resolution -/

/-- C4 counterexample input: the project root itself contains `.json`. -/
def c4Path : List Char := "/p.json/sounds/a.json".data

/-- C4 counterexample input root. -/
def c4Root : List Char := "/p.json".data

/-- C4 counterexample output root. -/
def c4Out : List Char := "/out".data

/-- C4 counterexample: an input lying under the input root (which ends in
`.json`) resolves to a path that does not begin with the output root,
because the extension substitution rewrites the root prefix before the root
substitution runs. -/
theorem C4_counterexample :
    (c4Root <+: c4Path) ∧ (jsonL <:+ c4Path) ∧
    processed_json_path c4Path c4Root c4Out = "/p.amsound/sounds/a.amsound".data ∧
    ¬ (c4Out <+: processed_json_path c4Path c4Root c4Out) := by
  decide

/-- C4 amended: `resolveOutputPath` is deterministic; and whenever the
extension-substituted input still carries the (nonempty) input root as a
prefix and the root occurs nowhere in the remainder `t`, the result is
exactly `outputRoot ++ t` — so it begins with the output root, and it ends
with the classified extension provided the input ends in `.json` and the
remainder is at least as long as that extension. -/
theorem C4_amended :
    (∀ p₁ p₂ r₁ r₂ o₁ o₂ : List Char, p₁ = p₂ → r₁ = r₂ → o₁ = o₂ →
      processed_json_path p₁ r₁ o₁ = processed_json_path p₂ r₂ o₂) ∧
    (∀ path root out t : List Char, root ≠ [] →
      pyReplace path jsonL (amExtension path) = root ++ t →
      ¬ root <:+: t →
      processed_json_path path root out = out ++ t ∧
      out <+: processed_json_path path root out ∧
      (jsonL <:+ path → (amExtension path).length ≤ t.length →
        amExtension path <:+ processed_json_path path root out)) := by
  constructor
  · intro p₁ p₂ r₁ r₂ o₁ o₂ hp hr ho
    rw [hp, hr, ho]
  · intro path root out t hroot h2 h3
    have hmain : processed_json_path path root out = out ++ t := by
      unfold processed_json_path
      rw [h2, pyReplace_append_left root t out hroot, pyReplace_of_not_infix out h3]
    refine ⟨hmain, by rw [hmain]; exact ⟨t, rfl⟩, fun hjs hlen => ?_⟩
    have hsE : amExtension path <:+ pyReplace path jsonL (amExtension path) :=
      ext_suffix_pyReplace (amExtension path) path hjs
    obtain ⟨u, hu⟩ := hsE
    have hApp : u ++ amExtension path = root ++ t := by rw [hu, h2]
    have hlens := congrArg List.length hApp
    simp only [List.length_append] at hlens
    have hru : root.length ≤ u.length := by omega
    have ht : t = u.drop root.length ++ amExtension path := by
      have hdq := congrArg (List.drop root.length) hApp
      rw [drop_append_le hru, List.drop_left] at hdq
      exact hdq.symm
    have hsufft : amExtension path <:+ t := ⟨u.drop root.length, ht.symm⟩
    rw [hmain]
    exact hsufft.trans (List.suffix_append out t)

/-- C4 amended witness path. -/
def c4wPath : List Char := "/in/sounds/a.json".data

/-- C4 amended witness input root. -/
def c4wRoot : List Char := "/in".data

/-- C4 amended witness output root. -/
def c4wOut : List Char := "/out".data

/-- C4 amended witness remainder below the root. -/
def c4wTail : List Char := "/sounds/a.amsound".data

/-- Witness for C4 amended: on a well-behaved input the resolved path begins
with the output root and ends with the classified extension. -/
theorem C4_amended_witness :
    processed_json_path c4wPath c4wRoot c4wOut = c4wOut ++ c4wTail ∧
    c4wOut <+: processed_json_path c4wPath c4wRoot c4wOut ∧
    amExtension c4wPath <:+ processed_json_path c4wPath c4wRoot c4wOut := by
  obtain ⟨h1, h2, h3⟩ :=
    (C4_amended).2 c4wPath c4wRoot c4wOut c4wTail (by decide) (by decide) (by decide)
  exact ⟨h1, h2, h3 (by decide) (by decide)⟩

/-- C5 counterexample input: not under the input root. -/
def c5Path : List Char := "/other/a.json".data

/-- C5 counterexample input root. -/
def c5Root : List Char := "/in".data

/-- C5 counterexample output root. -/
def c5Out : List Char := "/out".data

/-- C5 counterexample: for an input that does not lie under the input root,
`processed_json_path` raises nothing — it silently returns a path outside
the output tree (the output root is not a prefix of the result). -/
theorem C5_counterexample :
    (¬ c5Root <+: c5Path) ∧
    processed_json_path c5Path c5Root c5Out = "/other/a.ambin".data ∧
    ¬ (c5Out <+: processed_json_path c5Path c5Root c5Out) := by
  decide

/-- C5 amended: `processed_json_path` is total and never raises; when the
input root does not occur in the extension-substituted input at all, the
root substitution is a no-op and the result is the extension-substituted
input itself — in particular not under the output root whenever the output
root is not a prefix of that string. -/
theorem C5_amended (path root out : List Char)
    (h : ¬ root <:+: pyReplace path jsonL (amExtension path)) :
    processed_json_path path root out = pyReplace path jsonL (amExtension path) ∧
    (¬ out <+: pyReplace path jsonL (amExtension path) →
      ¬ out <+: processed_json_path path root out) := by
  have hmain : processed_json_path path root out = pyReplace path jsonL (amExtension path) :=
    pyReplace_of_not_infix out h
  exact ⟨hmain, fun h2 => hmain ▸ h2⟩

/-- Witness for C5 amended at the counterexample input: the result is the
extension-substituted path, and it does not begin with the output root. -/
theorem C5_amended_witness :
    processed_json_path c5Path c5Root c5Out = pyReplace c5Path jsonL (amExtension c5Path) ∧
    ¬ (c5Out <+: processed_json_path c5Path c5Root c5Out) := by
  obtain ⟨h1, h2⟩ := C5_amended c5Path c5Root c5Out (by decide)
  exact ⟨h1, h2 (by decide)⟩

/-! ### C10: cleaning a unit never removes its own input -/

theorem foldr_interleave_length (s out : List Char) :
    (s.foldr (fun c acc => c :: (out ++ acc)) []).length = s.length * (out.length + 1) := by
  induction s with
  | nil => simp
  | cons c rest ih =>
    simp only [List.foldr_cons, List.length_cons, List.length_append, ih, Nat.succ_mul]
    omega

/-- C10: for a discovered input — a path of the shape
`os.path.join(projectRoot, …)` (the root is followed by a separator, or
itself ends in one) ending in `.json` — the resolved output path the clean
operation deletes always differs from the input path itself, for every
output root. -/
theorem C10_clean_never_deletes_input (path root out : List Char)
    (hjson : jsonL <:+ path)
    (hunder : root ++ ['/'] <+: path ∨ (root <+: path ∧ root.getLast? = some '/')) :
    processed_json_path path root out ≠ path := by
  intro hEq
  have hE : ExtOk (amExtension path) := extOk_amExtension path
  set E := amExtension path with hEdef
  set s := pyReplace path jsonL E with hsdef
  have hEq' : pyReplace s root out = path := hEq
  have hnoJ : ¬ jsonL <:+: s := not_json_infix_pyReplace E hE path
  have hk1 : 1 ≤ pyCount path jsonL := pyCount_pos_of_infix jsonL_ne_nil hjson.isInfix
  have hlen1 := length_pyReplace jsonL E jsonL_ne_nil path
  rw [jsonL_length, ← hsdef] at hlen1
  have h6 : 6 ≤ E.length := hE.2.2.1
  by_cases hroot : root = []
  · subst hroot
    have hrepl : pyReplace s [] out = out ++ s.foldr (fun c acc => c :: (out ++ acc)) [] := by
      simp [pyReplace]
    rw [hrepl] at hEq'
    have hfl := foldr_interleave_length s out
    have hlenEq := congrArg List.length hEq'
    simp only [List.length_append, hfl] at hlenEq
    have hbig : s.length * 1 ≤ s.length * (out.length + 1) :=
      Nat.mul_le_mul_left s.length (by omega)
    have hKE : pyCount path jsonL * 6 ≤ pyCount path jsonL * E.length :=
      Nat.mul_le_mul_left _ h6
    generalize pyCount path jsonL * E.length = KE at hlen1 hKE
    generalize s.length * (out.length + 1) = SL at hlenEq hbig
    omega
  · have hrootpre : root <+: path := by
      rcases hunder with hA | ⟨hB, _⟩
      · exact (List.prefix_append root ['/']).trans hA
      · exact hB
    by_cases hocc : ∃ i, i < root.length ∧ jsonL <+: path.drop i
    · obtain ⟨i, hi, hoccI⟩ := hocc
      have hfact : ∀ d' < 5,
          (jsonL.drop d').head? ≠ some '/' ∧ ((jsonL.drop d').head?).isSome = true := by decide
      have hfull : i + 5 ≤ root.length := by
        by_contra hlt
        push_neg at hlt
        obtain ⟨w, hw⟩ := hoccI
        have hmainA : ∀ (w0 : List Char) (n : Nat), path.drop n = '/' :: w0 → i ≤ n →
            n ≤ i + 4 → False := by
          intro w0 n hdp hin hni
          set d := n - i with hd
          have htl : jsonL.drop d <+: path.drop n := by
            have h1 : (path.drop i).drop d = jsonL.drop d ++ w := by
              rw [← hw, drop_append_le (by rw [jsonL_length]; omega)]
            rw [List.drop_drop] at h1
            have hid : i + d = n := by omega
            rw [hid] at h1
            exact ⟨w, h1.symm⟩
          rw [hdp] at htl
          obtain ⟨hne', hsome⟩ := hfact d (by omega)
          obtain ⟨t0, ht0⟩ := htl
          have hh := congrArg List.head? ht0
          rw [List.head?_append] at hh
          cases hcase : (jsonL.drop d).head? with
          | none => rw [hcase] at hsome; simp at hsome
          | some ch =>
            rw [hcase] at hh hne'
            simp only [Option.or_some, List.head?_cons] at hh
            exact hne' (by rw [hh])
        rcases hunder with hA | ⟨hB, hBlast⟩
        · obtain ⟨w0, hw0⟩ := hA
          have hdp : path.drop root.length = '/' :: w0 := by
            rw [← hw0, List.append_assoc, List.drop_left]
            simp
          exact hmainA w0 root.length hdp (by omega) (by omega)
        · obtain ⟨r0, hr0⟩ := List.getLast?_eq_some_iff.mp hBlast
          obtain ⟨w1, hw1⟩ := hB
          have hr0len : root.length = r0.length + 1 := by
            rw [hr0]; simp
          have hdp : path.drop r0.length = '/' :: w1 := by
            rw [← hw1, hr0, List.append_assoc, List.drop_left]
            simp
          exact hmainA w1 r0.length hdp (by omega) (by omega)
      have hJroot : jsonL <:+: root := by
        obtain ⟨w, hw⟩ := hoccI
        obtain ⟨tail, htail⟩ := hrootpre
        have hsplit2 : path.drop i = root.drop i ++ tail := by
          rw [← htail, drop_append_le (by omega : i ≤ root.length)]
        have heq2 : jsonL ++ w = root.drop i ++ tail := by rw [hw, hsplit2]
        have hlen5 : jsonL.length ≤ (root.drop i).length := by
          rw [jsonL_length, List.length_drop]
          omega
        have htk := congrArg (List.take jsonL.length) heq2
        rw [List.take_left, List.take_append_eq_append_take,
          Nat.sub_eq_zero_of_le hlen5, List.take_zero, List.append_nil] at htk
        have hpre2 : jsonL <+: root.drop i := by
          rw [htk]
          exact List.take_prefix _ _
        obtain ⟨v, hv⟩ := hpre2
        exact ⟨root.take i, v, by rw [List.append_assoc, hv, List.take_append_drop]⟩
      have hnr : ¬ root <:+: s := fun hrs => hnoJ (hJroot.trans hrs)
      have hss : pyReplace s root out = s := pyReplace_of_not_infix out hnr
      rw [hss] at hEq'
      exact hnoJ (by rw [hEq']; exact hjson.isInfix)
    · push_neg at hocc
      have htake : path.take root.length = root := (List.prefix_iff_eq_take.mp hrootpre).symm
      have hsplit : s = root ++ pyReplace (path.drop root.length) jsonL E := by
        rw [hsdef, pyReplace_factor jsonL E jsonL_ne_nil root.length path hocc, htake]
      set t := pyReplace (path.drop root.length) jsonL E with htdef
      have hres : pyReplace s root out = out ++ pyReplace t root out := by
        rw [hsplit, pyReplace_append_left root t out hroot]
      have houtpre : out <+: path := ⟨pyReplace t root out, by rw [← hres, hEq']⟩
      have hlen2 := length_pyReplace root out hroot s
      have hlenres := congrArg List.length hEq'
      have hKE : pyCount path jsonL * 6 ≤ pyCount path jsonL * E.length :=
        Nat.mul_le_mul_left _ h6
      have hmm2 : pyCount s root * out.length < pyCount s root * root.length := by
        generalize pyCount path jsonL * E.length = KE at hlen1 hKE
        generalize pyCount s root * root.length = MR at hlen2
        generalize pyCount s root * out.length = MO at hlen2
        omega
      have houtlt : out.length < root.length := by
        by_contra hge
        push_neg at hge
        exact absurd hmm2 (Nat.not_lt.mpr (Nat.mul_le_mul_left _ hge))
      have houtroot : out <+: root :=
        List.prefix_of_prefix_length_le houtpre hrootpre (le_of_lt houtlt)
      have hc1 := count_pyReplace 'j' jsonL E jsonL_ne_nil path
      rw [← hsdef] at hc1
      have hc2 := count_pyReplace 'j' root out hroot s
      have hJ1 : jsonL.count 'j' = 1 := by decide
      have hE0 : E.count 'j' = 0 := hE.2.2.2.2.2
      rw [hJ1, hE0] at hc1
      rw [hEq'] at hc2
      have hcle : out.count 'j' ≤ root.count 'j' := houtroot.sublist.count_le 'j'
      have hmle : pyCount s root * out.count 'j' ≤ pyCount s root * root.count 'j' :=
        Nat.mul_le_mul_left _ hcle
      generalize pyCount s root * root.count 'j' = A at hc2 hmle
      generalize pyCount s root * out.count 'j' = B at hc2 hmle
      omega

/-- Witness for C10: for the concrete unit discovered under `proj`, the
cleaned output path differs from the input path. -/
theorem C10_clean_never_deletes_input_witness :
    processed_json_path wJson wRoot wOut ≠ wJson :=
  C10_clean_never_deletes_input wJson wRoot wOut (by decide) (Or.inl (by decide))

end AmplitudeBuild
